import Mathlib

/-!
Verification development for the NodeModal patch engine
(`src/features/modals/NodeModal/index.tsx`).

JavaScript strings are modelled as lists of characters (`Str`), JavaScript
scalar values as `JSValue`, node rows as `Row`, and JSON path segments as
`PathSeg`.  `JSON.stringify` on the shapes the component uses (arrays of
path segments, flat objects of scalars) is modelled by `jsStringifyPath`
and `jsonStringifyPretty2`, including JS property-key ordering (array-index
keys ascending first) and JSON string escaping.
-/

set_option autoImplicit false

namespace NodeModal

/-- JavaScript strings, modelled as lists of characters. -/
abbrev Str := List Char

/-- The opening-brace character (named so string literals stay brace-free). -/
def lbrace : Char := Char.ofNat 123

/-- The closing-brace character. -/
def rbrace : Char := Char.ofNat 125

/-- Scalar JavaScript values that occur as row values. -/
inductive JSValue where
  | vstr (s : Str)
  | vnum (n : Int)
  | vbool (b : Bool)
  | vnull
  deriving DecidableEq

/-- Decimal digit character for `n < 10`. -/
def digitChar (n : Nat) : Char := Char.ofNat (48 + n)

/-- Little-endian decimal digits, fuelled so the kernel can evaluate it
(the fallback branch is never reached when the fuel is at least `n`). -/
def natDigitsLEAux : Nat → Nat → List Char
  | n, fuel + 1 =>
      if n < 10 then [digitChar n]
      else digitChar (n % 10) :: natDigitsLEAux (n / 10) fuel
  | n, 0 => [digitChar n]

/-- Little-endian decimal digits of a natural number. -/
def natDigitsLE (n : Nat) : List Char := natDigitsLEAux n n

/-- Decimal representation of a natural number (JS `String(n)` for integers). -/
def natRepr (n : Nat) : Str := (natDigitsLE n).reverse

/-- Decimal representation of an integer (JS `String(n)` for integral numbers). -/
def intRepr (n : Int) : Str :=
  if n < 0 then '-' :: natRepr n.natAbs else natRepr n.natAbs

/-- JS `String(v)` (equivalently a template literal splice) on a scalar value. -/
def jsStringOf : JSValue → Str
  | .vstr s => s
  | .vnum n => intRepr n
  | .vbool true => "true".toList
  | .vbool false => "false".toList
  | .vnull => "null".toList

/-- One flattened row of a selected node: `{ key, value, type }`, with the
braces read as JS object-literal syntax.  The `type` field is a plain string
in the source, compared against `"array"` / `"object"`. -/
structure Row where
  key : Option Str
  value : JSValue
  typ : Str
  deriving DecidableEq

/-- JS truthiness of `row.key`: defined and non-empty. -/
def rowKeyTruthy (r : Row) : Bool :=
  match r.key with
  | some k => !k.isEmpty
  | none => false

/-- JS object property assignment `obj[k] = v` on an insertion-ordered
association list: an existing key keeps its position and gets the new value,
a new key is appended. -/
def jsInsert : List (Str × JSValue) → Str → JSValue → List (Str × JSValue)
  | [], k, v => [(k, v)]
  | (k', v') :: es, k, v =>
      if k' = k then (k', v) :: es else (k', v') :: jsInsert es k v

/-- One iteration of the `forEach` in `normalizeNodeData`:
skip container-typed rows, skip falsy keys, otherwise assign. -/
def insertRow (acc : List (Str × JSValue)) (r : Row) : List (Str × JSValue) :=
  if r.typ = "array".toList ∨ r.typ = "object".toList then acc
  else
    match r.key with
    | some k => if k.isEmpty then acc else jsInsert acc k r.value
    | none => acc

/-- The object built by the `forEach` loop of `normalizeNodeData`. -/
def buildObj (rows : List Row) : List (Str × JSValue) :=
  rows.foldl insertRow []

/-- Decimal digit test. -/
def isDigitCh (c : Char) : Bool := 48 ≤ c.toNat && c.toNat ≤ 57

/-- Numeric value of a digit character. -/
def digitVal (c : Char) : Nat := c.toNat - 48

/-- Value of a decimal digit string. -/
def digitsToNat (s : List Char) : Nat := s.foldl (fun a c => a * 10 + digitVal c) 0

/-- Whether a JS property key is an array index (canonical decimal numeral
whose value is below `2^32 - 1`); such keys are enumerated first, in
ascending numeric order, by JS property enumeration. -/
def isArrayIndexKey (k : Str) : Bool :=
  match k with
  | [] => false
  | c :: cs => (c :: cs).all isDigitCh && (cs.isEmpty || c != '0')
      && digitsToNat (c :: cs) < 4294967295

/-- Insert an entry into a list sorted ascending by numeric key value. -/
def insertByIdx (p : Str × JSValue) : List (Str × JSValue) → List (Str × JSValue)
  | [] => [p]
  | q :: qs =>
      if digitsToNat p.1 < digitsToNat q.1 then p :: q :: qs else q :: insertByIdx p qs

/-- Insertion sort by numeric key value. -/
def sortByNumericKey : List (Str × JSValue) → List (Str × JSValue)
  | [] => []
  | p :: ps => insertByIdx p (sortByNumericKey ps)

/-- JS own-property enumeration order: array-index keys ascending by value,
then the remaining keys in insertion order. -/
def orderOwnKeys (entries : List (Str × JSValue)) : List (Str × JSValue) :=
  sortByNumericKey (entries.filter (fun e => isArrayIndexKey e.1))
    ++ entries.filter (fun e => !isArrayIndexKey e.1)

/-- Lowercase hexadecimal digit character for `n < 16`. -/
def hexDigitChar (n : Nat) : Char :=
  if n < 10 then Char.ofNat (48 + n) else Char.ofNat (87 + n)

/-- Model of the `JSON.stringify` escaping of one character in a string literal. -/
def escapeChar (c : Char) : List Char :=
  if c = '"' then ['\\', '"']
  else if c = '\\' then ['\\', '\\']
  else if c = Char.ofNat 8 then ['\\', 'b']
  else if c = Char.ofNat 9 then ['\\', 't']
  else if c = Char.ofNat 10 then ['\\', 'n']
  else if c = Char.ofNat 12 then ['\\', 'f']
  else if c = Char.ofNat 13 then ['\\', 'r']
  else if c.toNat < 32 then
    ['\\', 'u', '0', '0', hexDigitChar (c.toNat / 16), hexDigitChar (c.toNat % 16)]
  else [c]

/-- Model of the `JSON.stringify` escaping of a whole string body. -/
def escapeStr : Str → List Char
  | [] => []
  | c :: cs => escapeChar c ++ escapeStr cs

/-- A JSON string literal: quote, escaped body, quote. -/
def jsonQuote (s : Str) : Str := '"' :: (escapeStr s ++ ['"'])

/-- Model of `JSON.stringify` on a scalar value. -/
def jsonOfValue : JSValue → Str
  | .vstr s => jsonQuote s
  | .vnum n => intRepr n
  | .vbool true => "true".toList
  | .vbool false => "false".toList
  | .vnull => "null".toList

/-- Join a list of strings with a separator (JS `Array.prototype.join`). -/
def joinSep (sep : Str) : List Str → Str
  | [] => []
  | [x] => x
  | x :: xs => x ++ (sep ++ joinSep sep xs)

/-- One key-colon-value line of a 2-space pretty-printed flat object. -/
def entryLine (e : Str × JSValue) : Str :=
  ' ' :: ' ' :: (jsonQuote e.1 ++ (':' :: ' ' :: jsonOfValue e.2))

/-- Model of `JSON.stringify(obj, null, 2)` on a flat object of scalars,
including the JS own-property enumeration order. -/
def jsonStringifyPretty2 (obj : List (Str × JSValue)) : Str :=
  match orderOwnKeys obj with
  | [] => [lbrace, rbrace]
  | es => lbrace :: '\n' :: (joinSep [',', '\n'] (es.map entryLine) ++ ['\n', rbrace])

/-- Embedding of `normalizeNodeData` (source lines 23-34):
an empty row list gives the literal braces; a single row with a falsy key
gives the template splice of its value; otherwise the rows are folded into an
object (container-typed rows and falsy keys skipped) which is pretty-printed
with 2-space indentation. -/
def normalizeNodeData (nodeRows : List Row) : Str :=
  match nodeRows with
  | [] => [lbrace, rbrace]
  | r :: rest =>
      if rest.isEmpty && !rowKeyTruthy r then jsStringOf r.value
      else jsonStringifyPretty2 (buildObj (r :: rest))

/-- A JSON path segment: a non-negative array index or a string object key. -/
inductive PathSeg where
  | idx (n : Nat)
  | key (s : Str)
  deriving DecidableEq

/-- The segment display used by `jsonPathToString` (numbers pass through the
ternary unquoted, other segments are wrapped in double quotes with no
escaping). -/
def segDisplay : PathSeg → Str
  | .idx n => natRepr n
  | .key s => '"' :: (s ++ ['"'])

/-- Embedding of `jsonPathToString` (source lines 37-41). -/
def jsonPathToString : Option (List PathSeg) → Str
  | none => ['$']
  | some [] => ['$']
  | some (s :: p) =>
      '$' :: '[' :: (joinSep [']', '['] ((s :: p).map segDisplay) ++ [']'])

/-- Model of `JSON.stringify` on one path segment. -/
def jsonOfSeg : PathSeg → Str
  | .idx n => natRepr n
  | .key s => jsonQuote s

/-- Model of `JSON.stringify` on a path (an array of segments). -/
def jsStringifyPath (p : List PathSeg) : Str :=
  '[' :: (joinSep [','] (p.map jsonOfSeg) ++ [']'])

/-- The path comparison the reconciliation code performs:
stringify the node path and the target path and compare the strings
(source line 124). -/
def pathMatches (p q : List PathSeg) : Bool :=
  jsStringifyPath p == jsStringifyPath q

/-- A graph node as the reconciliation step sees it. -/
structure NodeData where
  path : List PathSeg
  text : List Row
  deriving DecidableEq

/-- Embedding of the selection-reconciliation step (source lines 120-129):
find the first rebuilt node whose stringified path equals the stringified
target path; promote it if found, otherwise leave the current selection
untouched (`setSelectedNode` is only called on a match). -/
def reconcile (nodes : List NodeData) (targetPath : List PathSeg)
    (current : Option NodeData) : Option NodeData :=
  match nodes.find? (fun n => pathMatches n.path targetPath) with
  | some matched => some matched
  | none => current

/-- Elementwise segment equality by type and value (spec section 3). -/
def segEqB : PathSeg → PathSeg → Bool
  | .idx m, .idx n => m == n
  | .key s, .key t => s == t
  | _, _ => false

/-- Structural path equality from spec section 3: same length and each
segment equal by type and value. -/
def pathStructEqB : List PathSeg → List PathSeg → Bool
  | [], [] => true
  | a :: as, b :: bs => segEqB a b && pathStructEqB as bs
  | _, _ => false

/-- Hexadecimal value of a lowercase hex digit character. -/
def hexVal (c : Char) : Nat :=
  if c.toNat ≤ 57 then c.toNat - 48 else c.toNat - 87

/-- Inverse of the two-character escapes of `escapeChar`. -/
def simpleUnescape (e : Char) : Option Char :=
  if e = '"' then some '"'
  else if e = '\\' then some '\\'
  else if e = 'b' then some (Char.ofNat 8)
  else if e = 't' then some (Char.ofNat 9)
  else if e = 'n' then some (Char.ofNat 10)
  else if e = 'f' then some (Char.ofNat 12)
  else if e = 'r' then some (Char.ofNat 13)
  else none

/-- Decode the body of a JSON string literal up to its closing quote,
returning the decoded body and the remainder after the quote (a proof
device for injectivity of the serializer). -/
def decodeStrAux : List Char → Option (List Char × List Char)
  | [] => none
  | c :: r =>
      if c = '"' then some ([], r)
      else if c = '\\' then
        match r with
        | [] => none
        | e :: r1 =>
            if e = 'u' then
              match r1 with
              | h1 :: h2 :: h3 :: h4 :: r2 =>
                  (decodeStrAux r2).map
                    (fun p =>
                      (Char.ofNat (hexVal h1 * 4096 + hexVal h2 * 256
                          + hexVal h3 * 16 + hexVal h4) :: p.1, p.2))
              | _ => none
            else
              match simpleUnescape e with
              | some d => (decodeStrAux r1).map (fun p => (d :: p.1, p.2))
              | none => none
      else (decodeStrAux r).map (fun p => (c :: p.1, p.2))

/-- Longest digit run at the front of a character list, with the remainder. -/
def spanDigits : List Char → List Char × List Char
  | [] => ([], [])
  | c :: r =>
      if isDigitCh c then
        let p := spanDigits r
        (c :: p.1, p.2)
      else ([], c :: r)

/-- The serialized segment list between the brackets of `jsStringifyPath`. -/
def pathBody (p : List PathSeg) : List Char := joinSep [','] (p.map jsonOfSeg)

/-- Parsed document values.  The document text is modelled by its parsed
tree: the byte-level concerns of the real patch engine (comment and
whitespace preservation, minimal spans) live in the `jsonc-parser`
dependency, which is not part of this repository's source. -/
inductive Json where
  | str (s : Str)
  | num (n : Int)
  | jbool (b : Bool)
  | null
  | arr (elems : List Json)
  | obj (fields : List (Str × Json))

/-- First-match lookup of an object member. -/
def lookupField : List (Str × Json) → Str → Option Json
  | [], _ => none
  | (k, v) :: fs, target => if k = target then some v else lookupField fs target

/-- Set an object member: replace the value of an existing key in place,
or append a new member at the end. -/
def setField : List (Str × Json) → Str → Json → List (Str × Json)
  | [], k, v => [(k, v)]
  | (k', v') :: fs, k, v =>
      if k' = k then (k', v) :: fs else (k', v') :: setField fs k v

/-- Resolve a path in a document. -/
def getAt : List PathSeg → Json → Option Json
  | [], j => some j
  | PathSeg.key k :: rest, Json.obj fs =>
      match lookupField fs k with
      | some child => getAt rest child
      | none => none
  | PathSeg.idx i :: rest, Json.arr xs =>
      match xs.get? i with
      | some child => getAt rest child
      | none => none
  | _ :: _, _ => none

/-- Navigate to `basePath` and set member `f` of the object found there. -/
def setAtObj : List PathSeg → Json → Str → Json → Except Unit Json
  | [], Json.obj fs, f, v => .ok (Json.obj (setField fs f v))
  | [], _, _, _ => .error ()
  | PathSeg.key k :: rest, Json.obj fs, f, v =>
      match lookupField fs k with
      | some child =>
          match setAtObj rest child f v with
          | .ok child' => .ok (Json.obj (setField fs k child'))
          | .error e => .error e
      | none => .error ()
  | PathSeg.idx i :: rest, Json.arr xs, f, v =>
      match xs.get? i with
      | some child =>
          match setAtObj rest child f v with
          | .ok child' => .ok (Json.arr (xs.set i child'))
          | .error e => .error e
      | none => .error ()
  | _ :: _, _, _, _ => .error ()

/-- Modelled from the spec: the Patch Applier (spec section 4.3).  The source
delegates one field edit to `modify`/`applyEdits` of `jsonc-parser`, which is
not part of this repository's source; per section 4.3 the edit sets
`document[basePath ++ [field]]` to the (string) draft value when `basePath`
resolves to an object node, and fails — the JS call throws, reaching the
surrounding `catch` — when the base path cannot be resolved as an edit
target (section 7, resolution failure). -/
def applyFieldEditE (doc : Json) (basePath : List PathSeg) (field : Str) (v : Str) :
    Except Unit Json :=
  setAtObj basePath doc field (Json.str v)

/-- Embedding of the Save `onClick` commit (source lines 79-136): one
`try/catch` wraps both sequential field edits and the publish (`setJson`); a
throw anywhere inside skips everything after it and only resets the editing
state.  The result is the text passed to `setJson`, or `none` when nothing
is published. -/
def saveCommit (json : Json) (basePath : List PathSeg) (nameValue colorValue : Str) :
    Option Json :=
  match applyFieldEditE json basePath "name".toList nameValue with
  | .error _ => none
  | .ok updated1 =>
      match applyFieldEditE updated1 basePath "color".toList colorValue with
      | .error _ => none
      | .ok updated2 => some updated2

/-- The per-field best-effort commit policy the spec describes (sections 4.3
and 7): a failing field edit is skipped, the commit continues with the next
field, and the text with whatever edits succeeded is published. -/
def bestEffortCommit (json : Json) (basePath : List PathSeg) (nameValue colorValue : Str) :
    Option Json :=
  let updated1 :=
    match applyFieldEditE json basePath "name".toList nameValue with
    | .ok d => d
    | .error _ => json
  let updated2 :=
    match applyFieldEditE updated1 basePath "color".toList colorValue with
    | .ok d => d
    | .error _ => updated1
  some updated2

/-- The key under which a row is assigned by the `forEach` loop, if any:
`none` for container-typed rows and falsy (absent or empty) keys. -/
def qualKey (r : Row) : Option Str :=
  if r.typ = "array".toList ∨ r.typ = "object".toList then none
  else
    match r.key with
    | some k => if k.isEmpty then none else some k
    | none => none

/-- Pretty-print a flat object literal with the entries in the given order
(no JS property reordering); used to state claims about entry order. -/
def prettyObjInOrder (entries : List (Str × JSValue)) : Str :=
  match entries with
  | [] => [lbrace, rbrace]
  | es => lbrace :: '\n' :: (joinSep [',', '\n'] (es.map entryLine) ++ ['\n', rbrace])

/-- The entry list claim C5 describes: the (key, value) pairs of the rows
whose type is neither object nor array and that have a defined key, in
input order. -/
def claimEntriesC5 (rows : List Row) : List (Str × JSValue) :=
  rows.filterMap (fun r =>
    if r.typ = "array".toList ∨ r.typ = "object".toList then none
    else
      match r.key with
      | some k => some (k, r.value)
      | none => none)

/-- The output claim C5 predicts. -/
def claimNormalizeC5 (rows : List Row) : Str :=
  prettyObjInOrder (claimEntriesC5 rows)

/-- The value of the last qualifying row with key `k`. -/
def lastQualValue (rows : List Row) (k : Str) : Option JSValue :=
  (rows.filterMap (fun r =>
    match qualKey r with
    | some k2 => if k2 = k then some r.value else none
    | none => none)).getLast?

/-- Deduplicate a key list keeping each key at its first occurrence. -/
def firstDedup : List Str → List Str
  | [] => []
  | k :: ks => k :: (firstDedup ks).filter (fun k2 => k2 ≠ k)

/-- Entries for a key list: each key paired with its last qualifying value. -/
def entriesOf (rows : List Row) (ks : List Str) : List (Str × JSValue) :=
  ks.filterMap (fun k => (lastQualValue rows k).map (fun v => (k, v)))

/-- The declarative description of the object the `forEach` loop builds:
qualifying keys in first-occurrence order, each with its last value. -/
def specEntries (rows : List Row) : List (Str × JSValue) :=
  entriesOf rows (firstDedup (rows.filterMap qualKey))

/-! Lemmas and claim theorems. -/

lemma natDigitsLEAux_congr :
    ∀ (f1 f2 n : Nat), n ≤ f1 → n ≤ f2 → natDigitsLEAux n f1 = natDigitsLEAux n f2 := by
  intro f1
  induction f1 with
  | zero =>
      intro f2 n h1 _
      have hn : n = 0 := by omega
      subst hn
      cases f2 with
      | zero => rfl
      | succ g => simp [natDigitsLEAux]
  | succ f ih =>
      intro f2 n h1 h2
      cases f2 with
      | zero =>
          have hn : n = 0 := by omega
          subst hn
          simp [natDigitsLEAux]
      | succ g =>
          show natDigitsLEAux n (f + 1) = natDigitsLEAux n (g + 1)
          by_cases h : n < 10
          · simp [natDigitsLEAux, h]
          · have hdiv : n / 10 < n := Nat.div_lt_self (by omega) (by omega)
            simp only [natDigitsLEAux, if_neg h]
            exact congrArg _ (ih g (n / 10) (by omega) (by omega))

lemma natDigitsLE_lt {n : Nat} (h : n < 10) : natDigitsLE n = [digitChar n] := by
  cases n with
  | zero => rfl
  | succ k => simp [natDigitsLE, natDigitsLEAux, h]

lemma natDigitsLE_ge {n : Nat} (h : 10 ≤ n) :
    natDigitsLE n = digitChar (n % 10) :: natDigitsLE (n / 10) := by
  have h1 : n - 1 + 1 = n := by omega
  have h2 : natDigitsLEAux n n = natDigitsLEAux n (n - 1 + 1) := by rw [h1]
  have hdiv : n / 10 < n := Nat.div_lt_self (by omega) (by omega)
  rw [natDigitsLE, h2]
  show (if n < 10 then [digitChar n]
      else digitChar (n % 10) :: natDigitsLEAux (n / 10) (n - 1)) = _
  rw [if_neg (by omega), natDigitsLE]
  exact congrArg _ (natDigitsLEAux_congr (n - 1) (n / 10) (n / 10) (by omega) le_rfl)

lemma digitVal_digitChar : ∀ d, d < 10 → digitVal (digitChar d) = d := by decide

lemma isDigitCh_digitChar : ∀ d, d < 10 → isDigitCh (digitChar d) = true := by decide

lemma natDigitsLE_all_digits (n : Nat) : ∀ c ∈ natDigitsLE n, isDigitCh c = true := by
  induction n using Nat.strong_induction_on with
  | _ n ih =>
      by_cases h : n < 10
      · rw [natDigitsLE_lt h]
        intro c hc
        rw [List.mem_singleton] at hc
        subst hc
        exact isDigitCh_digitChar n h
      · rw [natDigitsLE_ge (by omega)]
        intro c hc
        rcases List.mem_cons.mp hc with h1 | h1
        · subst h1; exact isDigitCh_digitChar _ (Nat.mod_lt _ (by omega))
        · exact ih (n / 10) (Nat.div_lt_self (by omega) (by omega)) c h1

lemma natDigitsLE_ne_nil (n : Nat) : natDigitsLE n ≠ [] := by
  by_cases h : n < 10
  · rw [natDigitsLE_lt h]; simp
  · rw [natDigitsLE_ge (by omega)]; simp

lemma natRepr_ne_nil (n : Nat) : natRepr n ≠ [] := by
  simp [natRepr, natDigitsLE_ne_nil]

lemma natRepr_all_digits (n : Nat) : ∀ c ∈ natRepr n, isDigitCh c = true := by
  intro c hc
  exact natDigitsLE_all_digits n c (List.mem_reverse.mp hc)

lemma digitsToNat_append_singleton (xs : List Char) (c : Char) :
    digitsToNat (xs ++ [c]) = digitsToNat xs * 10 + digitVal c := by
  simp [digitsToNat, List.foldl_append]

lemma digitsToNat_natRepr (n : Nat) : digitsToNat (natRepr n) = n := by
  induction n using Nat.strong_induction_on with
  | _ n ih =>
      by_cases h : n < 10
      · rw [natRepr, natDigitsLE_lt h]
        simp [digitsToNat, digitVal_digitChar n h]
      · rw [natRepr, natDigitsLE_ge (by omega)]
        simp only [List.reverse_cons]
        rw [digitsToNat_append_singleton]
        have hrec : digitsToNat (natRepr (n / 10)) = n / 10 :=
          ih (n / 10) (Nat.div_lt_self (by omega) (by omega))
        rw [natRepr] at hrec
        rw [hrec, digitVal_digitChar _ (Nat.mod_lt _ (by omega))]
        omega

lemma hexVal_hexDigitChar : ∀ m, m < 16 → hexVal (hexDigitChar m) = m := by decide

lemma decodeStr_quote (r : List Char) : decodeStrAux ('"' :: r) = some ([], r) := by
  rw [decodeStrAux.eq_def]
  rfl

lemma decodeStr_esc (e : Char) (d : Char) (he : e ≠ 'u') (hd : simpleUnescape e = some d)
    (r : List Char) :
    decodeStrAux ('\\' :: e :: r) = (decodeStrAux r).map (fun p => (d :: p.1, p.2)) := by
  rw [decodeStrAux.eq_def]
  simp only [reduceIte]
  rw [if_neg he, hd]
  rw [if_neg (show ¬('\\' : Char) = '"' from by decide)]

lemma decodeStr_esc_u (h1 h2 h3 h4 : Char) (r : List Char) :
    decodeStrAux ('\\' :: 'u' :: h1 :: h2 :: h3 :: h4 :: r)
      = (decodeStrAux r).map
          (fun p => (Char.ofNat (hexVal h1 * 4096 + hexVal h2 * 256
              + hexVal h3 * 16 + hexVal h4) :: p.1, p.2)) := by
  rw [decodeStrAux.eq_def]
  rfl

lemma decodeStr_other (c : Char) (hq : ¬c = '"') (hb : ¬c = '\\') (r : List Char) :
    decodeStrAux (c :: r) = (decodeStrAux r).map (fun p => (c :: p.1, p.2)) := by
  rw [decodeStrAux.eq_def]
  simp only [hq, hb, if_false, reduceIte]

lemma decodeStrAux_roundtrip (s : Str) (r : List Char) :
    decodeStrAux (escapeStr s ++ ('"' :: r)) = some (s, r) := by
  induction s generalizing r with
  | nil => simp [escapeStr, decodeStr_quote]
  | cons c cs ih =>
      show decodeStrAux ((escapeChar c ++ escapeStr cs) ++ ('"' :: r)) = _
      rw [List.append_assoc]
      by_cases h1 : c = '"'
      · subst h1
        have he : escapeChar '"' = ['\\', '"'] := by decide
        rw [he]
        rw [show (['\\', '"'] : List Char) ++ (escapeStr cs ++ ('"' :: r))
            = '\\' :: '"' :: (escapeStr cs ++ ('"' :: r)) from rfl]
        rw [decodeStr_esc '"' '"' (by decide) (by decide), ih]
        rfl
      by_cases h2 : c = '\\'
      · subst h2
        have he : escapeChar '\\' = ['\\', '\\'] := by decide
        rw [he]
        rw [show (['\\', '\\'] : List Char) ++ (escapeStr cs ++ ('"' :: r))
            = '\\' :: '\\' :: (escapeStr cs ++ ('"' :: r)) from rfl]
        rw [decodeStr_esc '\\' '\\' (by decide) (by decide), ih]
        rfl
      by_cases h3 : c = Char.ofNat 8
      · subst h3
        rw [show escapeChar (Char.ofNat 8) = ['\\', 'b'] from by decide]
        rw [show (['\\', 'b'] : List Char) ++ (escapeStr cs ++ ('"' :: r))
            = '\\' :: 'b' :: (escapeStr cs ++ ('"' :: r)) from rfl]
        rw [decodeStr_esc 'b' (Char.ofNat 8) (by decide) (by decide), ih]
        rfl
      by_cases h4 : c = Char.ofNat 9
      · subst h4
        rw [show escapeChar (Char.ofNat 9) = ['\\', 't'] from by decide]
        rw [show (['\\', 't'] : List Char) ++ (escapeStr cs ++ ('"' :: r))
            = '\\' :: 't' :: (escapeStr cs ++ ('"' :: r)) from rfl]
        rw [decodeStr_esc 't' (Char.ofNat 9) (by decide) (by decide), ih]
        rfl
      by_cases h5 : c = Char.ofNat 10
      · subst h5
        rw [show escapeChar (Char.ofNat 10) = ['\\', 'n'] from by decide]
        rw [show (['\\', 'n'] : List Char) ++ (escapeStr cs ++ ('"' :: r))
            = '\\' :: 'n' :: (escapeStr cs ++ ('"' :: r)) from rfl]
        rw [decodeStr_esc 'n' (Char.ofNat 10) (by decide) (by decide), ih]
        rfl
      by_cases h6 : c = Char.ofNat 12
      · subst h6
        rw [show escapeChar (Char.ofNat 12) = ['\\', 'f'] from by decide]
        rw [show (['\\', 'f'] : List Char) ++ (escapeStr cs ++ ('"' :: r))
            = '\\' :: 'f' :: (escapeStr cs ++ ('"' :: r)) from rfl]
        rw [decodeStr_esc 'f' (Char.ofNat 12) (by decide) (by decide), ih]
        rfl
      by_cases h7 : c = Char.ofNat 13
      · subst h7
        rw [show escapeChar (Char.ofNat 13) = ['\\', 'r'] from by decide]
        rw [show (['\\', 'r'] : List Char) ++ (escapeStr cs ++ ('"' :: r))
            = '\\' :: 'r' :: (escapeStr cs ++ ('"' :: r)) from rfl]
        rw [decodeStr_esc 'r' (Char.ofNat 13) (by decide) (by decide), ih]
        rfl
      by_cases h8 : c.toNat < 32
      · have hchunk : escapeChar c
            = ['\\', 'u', '0', '0', hexDigitChar (c.toNat / 16), hexDigitChar (c.toNat % 16)] := by
          simp [escapeChar, h1, h2, h3, h4, h5, h6, h7, h8]
        rw [hchunk]
        rw [show (['\\', 'u', '0', '0', hexDigitChar (c.toNat / 16),
              hexDigitChar (c.toNat % 16)] : List Char) ++ (escapeStr cs ++ ('"' :: r))
            = '\\' :: 'u' :: '0' :: '0' :: hexDigitChar (c.toNat / 16)
              :: hexDigitChar (c.toNat % 16) :: (escapeStr cs ++ ('"' :: r)) from rfl]
        rw [decodeStr_esc_u, ih]
        have hv1 : hexVal (hexDigitChar (c.toNat / 16)) = c.toNat / 16 :=
          hexVal_hexDigitChar _ (by omega)
        have hv2 : hexVal (hexDigitChar (c.toNat % 16)) = c.toNat % 16 :=
          hexVal_hexDigitChar _ (Nat.mod_lt _ (by omega))
        have hnum : hexVal '0' * 4096 + hexVal '0' * 256
            + hexVal (hexDigitChar (c.toNat / 16)) * 16 + hexVal (hexDigitChar (c.toNat % 16))
            = c.toNat := by
          rw [hv1, hv2]
          show 0 * 4096 + 0 * 256 + c.toNat / 16 * 16 + c.toNat % 16 = c.toNat
          omega
        rw [hnum, Char.ofNat_toNat]
        rfl
      · have hchunk : escapeChar c = [c] := by
          simp [escapeChar, h1, h2, h3, h4, h5, h6, h7, h8]
        rw [hchunk]
        rw [show ([c] : List Char) ++ (escapeStr cs ++ ('"' :: r))
            = c :: (escapeStr cs ++ ('"' :: r)) from rfl]
        rw [decodeStr_other c h1 h2, ih]
        rfl

lemma spanDigits_append (ds r : List Char) (hds : ∀ c ∈ ds, isDigitCh c = true)
    (hr : ∀ c, r.head? = some c → isDigitCh c = false) :
    spanDigits (ds ++ r) = (ds, r) := by
  induction ds with
  | nil =>
      simp only [List.nil_append]
      cases r with
      | nil => rfl
      | cons c r' =>
          have hc : isDigitCh c = false := hr c rfl
          simp [spanDigits, hc]
  | cons d ds' ih =>
      have hd : isDigitCh d = true := hds d (List.mem_cons_self _ _)
      have hds' : ∀ c ∈ ds', isDigitCh c = true :=
        fun c hc => hds c (List.mem_cons_of_mem _ hc)
      simp [spanDigits, hd, ih hds']

lemma natRepr_head_digit (n : Nat) :
    ∃ d ds, natRepr n = d :: ds ∧ isDigitCh d = true := by
  cases hn : natRepr n with
  | nil => exact absurd hn (natRepr_ne_nil n)
  | cons d ds =>
      refine ⟨d, ds, rfl, ?_⟩
      exact natRepr_all_digits n d (hn ▸ List.mem_cons_self _ _)

/-- Cancellation for one serialized path segment: if two serializations
agree up to continuations that do not start with a digit, the segments and
the continuations agree. -/
lemma segCancel (s t : PathSeg) (r1 r2 : List Char)
    (h1 : ∀ c, r1.head? = some c → isDigitCh c = false)
    (h2 : ∀ c, r2.head? = some c → isDigitCh c = false)
    (heq : jsonOfSeg s ++ r1 = jsonOfSeg t ++ r2) : s = t ∧ r1 = r2 := by
  cases s with
  | key a =>
      cases t with
      | key b =>
          simp only [jsonOfSeg, jsonQuote, List.cons_append, List.append_assoc,
            List.singleton_append, List.nil_append, List.cons.injEq, true_and] at heq
          have hres := decodeStrAux_roundtrip a r1
          rw [heq, decodeStrAux_roundtrip b r2] at hres
          simp only [Option.some.injEq, Prod.mk.injEq] at hres
          exact ⟨by rw [hres.1], hres.2.symm⟩
      | idx n =>
          exfalso
          obtain ⟨d, ds, hn, hd⟩ := natRepr_head_digit n
          simp only [jsonOfSeg, jsonQuote, hn, List.cons_append, List.cons.injEq] at heq
          rw [← heq.1] at hd
          exact absurd hd (by decide)
  | idx m =>
      cases t with
      | key b =>
          exfalso
          obtain ⟨d, ds, hm, hd⟩ := natRepr_head_digit m
          simp only [jsonOfSeg, jsonQuote, hm, List.cons_append, List.cons.injEq] at heq
          rw [heq.1] at hd
          exact absurd hd (by decide)
      | idx n =>
          have hm := spanDigits_append (natRepr m) r1 (natRepr_all_digits m) h1
          rw [show jsonOfSeg (PathSeg.idx m) = natRepr m from rfl,
            show jsonOfSeg (PathSeg.idx n) = natRepr n from rfl] at heq
          rw [heq, spanDigits_append (natRepr n) r2 (natRepr_all_digits n) h2] at hm
          simp only [Prod.mk.injEq] at hm
          have hmn : m = n := by
            have hv := congrArg digitsToNat hm.1
            rw [digitsToNat_natRepr, digitsToNat_natRepr] at hv
            omega
          exact ⟨by rw [hmn], hm.2.symm⟩

lemma jsStringifyPath_eq_body (p : List PathSeg) :
    jsStringifyPath p = '[' :: (pathBody p ++ [']']) := rfl

lemma pathBody_cons_cons (s s2 : PathSeg) (ss : List PathSeg) :
    pathBody (s :: s2 :: ss) = jsonOfSeg s ++ (',' :: pathBody (s2 :: ss)) := by
  simp [pathBody, joinSep]

lemma headNonDigit_rbr : ∀ c, (((']' : Char) :: ([] : List Char)).head? = some c) →
    isDigitCh c = false := by
  intro c hc
  simp only [List.head?_cons, Option.some.injEq] at hc
  subst hc
  decide

lemma headNonDigit_comma (l : List Char) : ∀ c, ((',' :: l).head? = some c) →
    isDigitCh c = false := by
  intro c hc
  simp only [List.head?_cons, Option.some.injEq] at hc
  subst hc
  decide

lemma seg_head_not_rbr (t : PathSeg) (x : List Char) :
    jsonOfSeg t ++ x ≠ ']' :: [] := by
  cases t with
  | key b =>
      simp only [jsonOfSeg, jsonQuote, List.cons_append]
      intro h
      exact absurd (List.cons.inj h).1 (by decide)
  | idx n =>
      obtain ⟨d, ds, hn, hd⟩ := natRepr_head_digit n
      simp only [jsonOfSeg, hn, List.cons_append]
      intro h
      have hde : d = ']' := (List.cons.inj h).1
      rw [hde] at hd
      exact absurd hd (by decide)

lemma pathBody_cancel : ∀ (p q : List PathSeg),
    pathBody p ++ [']'] = pathBody q ++ [']'] → p = q := by
  intro p
  induction p with
  | nil =>
      intro q h
      cases q with
      | nil => rfl
      | cons t ts =>
          exfalso
          cases ts with
          | nil =>
              simp only [pathBody, List.map_nil, joinSep, List.map_cons, List.nil_append] at h
              exact seg_head_not_rbr t [']'] h.symm
          | cons t2 ts' =>
              rw [show pathBody ([] : List PathSeg) = [] from rfl,
                pathBody_cons_cons, List.nil_append, List.append_assoc] at h
              exact seg_head_not_rbr t (',' :: (pathBody (t2 :: ts') ++ [']'])) h.symm
  | cons s ss ih =>
      intro q h
      cases q with
      | nil =>
          exfalso
          cases ss with
          | nil =>
              simp only [pathBody, List.map_nil, joinSep, List.map_cons, List.nil_append] at h
              exact seg_head_not_rbr s [']'] h
          | cons s2 ss' =>
              rw [show pathBody ([] : List PathSeg) = [] from rfl,
                pathBody_cons_cons, List.nil_append, List.append_assoc] at h
              exact seg_head_not_rbr s (',' :: (pathBody (s2 :: ss') ++ [']'])) h
      | cons t ts =>
          cases ss with
          | nil =>
              cases ts with
              | nil =>
                  have hb : jsonOfSeg s ++ [']'] = jsonOfSeg t ++ [']'] := by
                    simpa [pathBody, joinSep] using h
                  have := segCancel s t [']'] [']'] headNonDigit_rbr headNonDigit_rbr hb
                  rw [this.1]
              | cons t2 ts' =>
                  exfalso
                  rw [pathBody_cons_cons, List.append_assoc] at h
                  have hb : jsonOfSeg s ++ [']']
                      = jsonOfSeg t ++ (',' :: (pathBody (t2 :: ts') ++ [']'])) := by
                    simpa [pathBody, joinSep] using h
                  have := segCancel s t [']'] (',' :: (pathBody (t2 :: ts') ++ [']']))
                    headNonDigit_rbr (headNonDigit_comma _) hb
                  exact absurd this.2 (by simp)
          | cons s2 ss' =>
              cases ts with
              | nil =>
                  exfalso
                  rw [pathBody_cons_cons, List.append_assoc] at h
                  have hb : jsonOfSeg s ++ (',' :: (pathBody (s2 :: ss') ++ [']']))
                      = jsonOfSeg t ++ [']'] := by
                    simpa [pathBody, joinSep] using h
                  have := segCancel s t (',' :: (pathBody (s2 :: ss') ++ [']'])) [']']
                    (headNonDigit_comma _) headNonDigit_rbr hb
                  exact absurd this.2 (by simp)
              | cons t2 ts' =>
                  rw [pathBody_cons_cons, pathBody_cons_cons, List.append_assoc,
                    List.append_assoc] at h
                  have := segCancel s t (',' :: (pathBody (s2 :: ss') ++ [']']))
                    (',' :: (pathBody (t2 :: ts') ++ [']']))
                    (headNonDigit_comma _) (headNonDigit_comma _) h
                  have htail : pathBody (s2 :: ss') ++ [']'] = pathBody (t2 :: ts') ++ [']'] :=
                    (List.cons.inj this.2).2
                  rw [this.1, ih (t2 :: ts') htail]

lemma jsStringifyPath_inj {p q : List PathSeg}
    (h : jsStringifyPath p = jsStringifyPath q) : p = q := by
  rw [jsStringifyPath_eq_body, jsStringifyPath_eq_body] at h
  have hb := (List.cons.inj h).2
  exact pathBody_cancel p q (by simpa using hb)

lemma pathMatches_iff (p q : List PathSeg) : pathMatches p q = true ↔ p = q := by
  unfold pathMatches
  constructor
  · intro h
    exact jsStringifyPath_inj (by simpa using h)
  · intro h
    subst h
    simp

lemma segEqB_iff (s t : PathSeg) : segEqB s t = true ↔ s = t := by
  cases s <;> cases t <;> simp [segEqB]

lemma pathStructEqB_iff : ∀ (p q : List PathSeg), pathStructEqB p q = true ↔ p = q := by
  intro p
  induction p with
  | nil =>
      intro q
      cases q <;> simp [pathStructEqB]
  | cons s ss ih =>
      intro q
      cases q with
      | nil => simp [pathStructEqB]
      | cons t ts =>
          simp [pathStructEqB, segEqB_iff, ih ts]

lemma lookupField_setField_same (fs : List (Str × Json)) (f : Str) (v : Json) :
    lookupField (setField fs f v) f = some v := by
  induction fs with
  | nil => simp [setField, lookupField]
  | cons e fs ih =>
      obtain ⟨k', v'⟩ := e
      by_cases h : k' = f
      · subst h
        simp [setField, lookupField]
      · simp [setField, lookupField, h, ih]

lemma lookupField_setField_other (fs : List (Str × Json)) (f g : Str) (v : Json)
    (hfg : g ≠ f) :
    lookupField (setField fs f v) g = lookupField fs g := by
  induction fs with
  | nil => simp [setField, lookupField, Ne.symm hfg]
  | cons e fs ih =>
      obtain ⟨k', v'⟩ := e
      by_cases h : k' = f
      · subst h
        simp [setField, lookupField, Ne.symm hfg]
      · by_cases h2 : k' = g
        · subst h2
          simp [setField, lookupField, h]
        · simp [setField, lookupField, h, h2, ih]

lemma getAt_append (p1 p2 : List PathSeg) (j : Json) :
    getAt (p1 ++ p2) j = (getAt p1 j).bind (getAt p2) := by
  induction p1 generalizing j with
  | nil => simp [getAt]
  | cons s p1' ih =>
      cases s with
      | key k =>
          cases j with
          | obj fs =>
              simp only [List.cons_append, getAt]
              cases lookupField fs k with
              | some child => simpa using ih child
              | none => simp
          | str s => simp [getAt]
          | num n => simp [getAt]
          | jbool b => simp [getAt]
          | null => simp [getAt]
          | arr xs => simp [getAt]
      | idx i =>
          cases j with
          | arr xs =>
              simp only [List.cons_append, getAt]
              cases xs.get? i with
              | some child => simpa using ih child
              | none => simp
          | str s => simp [getAt]
          | num n => simp [getAt]
          | jbool b => simp [getAt]
          | null => simp [getAt]
          | obj fs => simp [getAt]

lemma getAt_single_key (fs : List (Str × Json)) (g : Str) :
    getAt [PathSeg.key g] (Json.obj fs) = lookupField fs g := by
  simp only [getAt]
  cases lookupField fs g <;> simp [getAt]

/-- A successful edit target: setting member `f` at a resolvable object base
path succeeds, and afterwards the base path resolves to the updated object. -/
lemma setAtObj_ok (p : List PathSeg) :
    ∀ (j : Json) (fs : List (Str × Json)) (f : Str) (v : Json),
      getAt p j = some (Json.obj fs) →
      ∃ j', setAtObj p j f v = .ok j' ∧
        getAt p j' = some (Json.obj (setField fs f v)) := by
  induction p with
  | nil =>
      intro j fs f v h
      simp only [getAt, Option.some.injEq] at h
      subst h
      exact ⟨Json.obj (setField fs f v), rfl, rfl⟩
  | cons s rest ih =>
      intro j fs f v h
      cases s with
      | key k =>
          cases j with
          | obj gs =>
              simp only [getAt] at h
              cases hlk : lookupField gs k with
              | none => rw [hlk] at h; exact absurd h (by simp)
              | some child =>
                  rw [hlk] at h
                  obtain ⟨child', hok, hget⟩ := ih child fs f v h
                  refine ⟨Json.obj (setField gs k child'), ?_, ?_⟩
                  · simp [setAtObj, hlk, hok]
                  · simp [getAt, lookupField_setField_same, hget]
          | str s' => simp [getAt] at h
          | num n => simp [getAt] at h
          | jbool b => simp [getAt] at h
          | null => simp [getAt] at h
          | arr xs => simp [getAt] at h
      | idx i =>
          cases j with
          | arr xs =>
              simp only [getAt] at h
              cases hlk : xs.get? i with
              | none => rw [hlk] at h; exact absurd h (by simp)
              | some child =>
                  rw [hlk] at h
                  obtain ⟨child', hok, hget⟩ := ih child fs f v h
                  have hlen : i < xs.length := (List.get?_eq_some.mp hlk).1
                  have hlk2 : xs[i]? = some child := by
                    rw [← List.get?_eq_getElem?]
                    exact hlk
                  refine ⟨Json.arr (xs.set i child'), ?_, ?_⟩
                  · simp [setAtObj, hlk2, hok]
                  · have hset : (xs.set i child')[i]? = some child' := by
                      rw [List.getElem?_set_eq_of_lt child' (by simpa using hlen)]
                    simp [getAt, hset, hget]
          | str s' => simp [getAt] at h
          | num n => simp [getAt] at h
          | jbool b => simp [getAt] at h
          | null => simp [getAt] at h
          | obj fs' => simp [getAt] at h

lemma insertRow_eq (acc : List (Str × JSValue)) (r : Row) :
    insertRow acc r = match qualKey r with
      | some k => jsInsert acc k r.value
      | none => acc := by
  unfold insertRow qualKey
  by_cases h : r.typ = "array".toList ∨ r.typ = "object".toList
  · rw [if_pos h, if_pos h]
  · rw [if_neg h, if_neg h]
    cases hk : r.key with
    | none => rfl
    | some k =>
        by_cases hke : k.isEmpty
        · simp only [hke, if_true]
        · simp only [hke]
          rfl

lemma jsonStringifyPretty2_eq (obj : List (Str × JSValue)) :
    jsonStringifyPretty2 obj = prettyObjInOrder (orderOwnKeys obj) := by
  cases h : orderOwnKeys obj with
  | nil => simp [jsonStringifyPretty2, prettyObjInOrder, h]
  | cons e es => simp [jsonStringifyPretty2, prettyObjInOrder, h]

lemma buildObj_append (rows1 rows2 : List Row) :
    buildObj (rows1 ++ rows2) = rows2.foldl insertRow (buildObj rows1) := by
  simp [buildObj, List.foldl_append]

lemma buildObj_concat (rows : List Row) (r : Row) :
    buildObj (rows ++ [r]) = insertRow (buildObj rows) r := by
  simp [buildObj_append]

lemma lastQualValue_concat (rows : List Row) (r : Row) (k : Str) :
    lastQualValue (rows ++ [r]) k
      = match qualKey r with
        | some k2 => if k2 = k then some r.value else lastQualValue rows k
        | none => lastQualValue rows k := by
  unfold lastQualValue
  rw [List.filterMap_append]
  cases hq : qualKey r with
  | none => simp [hq]
  | some k2 =>
      by_cases hk : k2 = k
      · simp [hq, hk, List.getLast?_concat]
      · simp [hq, hk]

lemma mem_firstDedup (a : Str) : ∀ (ks : List Str), a ∈ firstDedup ks ↔ a ∈ ks := by
  intro ks
  induction ks with
  | nil => simp [firstDedup]
  | cons k ks ih =>
      by_cases ha : a = k
      · subst ha
        simp [firstDedup]
      · simp [firstDedup, List.mem_filter, ha, ih]

lemma firstDedup_nodup : ∀ (ks : List Str), (firstDedup ks).Nodup := by
  intro ks
  induction ks with
  | nil => simp [firstDedup]
  | cons k ks ih =>
      refine List.Nodup.cons ?_ (List.Nodup.filter _ ih)
      intro hmem
      have := (List.mem_filter.mp hmem).2
      simp at this

lemma firstDedup_concat (k : Str) : ∀ (ks : List Str),
    firstDedup (ks ++ [k]) = if k ∈ ks then firstDedup ks else firstDedup ks ++ [k] := by
  intro ks
  induction ks with
  | nil => simp [firstDedup]
  | cons a ks' ih =>
      show firstDedup (a :: (ks' ++ [k])) = _
      rw [firstDedup, ih]
      by_cases hk : k ∈ ks'
      · simp only [hk, if_true]
        simp [firstDedup, List.mem_cons, hk]
      · by_cases hka : k = a
        · subst hka
          simp only [hk, if_false, List.filter_append]
          simp [firstDedup, List.mem_cons]
        · simp only [hk, if_false, List.filter_append]
          have : k ∉ a :: ks' := by simp [hka, hk]
          simp [firstDedup, this, hka, List.mem_cons]

lemma entriesOf_congr (rows1 rows2 : List Row) (ks : List Str)
    (h : ∀ k ∈ ks, lastQualValue rows1 k = lastQualValue rows2 k) :
    entriesOf rows1 ks = entriesOf rows2 ks := by
  induction ks with
  | nil => rfl
  | cons k ks ih =>
      unfold entriesOf
      rw [List.filterMap_cons, List.filterMap_cons,
        h k (List.mem_cons_self _ _)]
      have := ih (fun k2 hk2 => h k2 (List.mem_cons_of_mem _ hk2))
      unfold entriesOf at this
      rw [this]

lemma entriesOf_key_mem (rows : List Row) (ks : List Str) (e : Str × JSValue)
    (he : e ∈ entriesOf rows ks) : e.1 ∈ ks := by
  obtain ⟨k, hk, hmap⟩ := List.mem_filterMap.mp he
  cases hv : lastQualValue rows k with
  | none => rw [hv] at hmap; simp at hmap
  | some v =>
      rw [hv] at hmap
      simp only [Option.map_some', Option.some.injEq] at hmap
      rw [← hmap]
      exact hk

lemma jsInsert_not_mem (es : List (Str × JSValue)) (k : Str) (v : JSValue)
    (h : ∀ e ∈ es, e.1 ≠ k) : jsInsert es k v = es ++ [(k, v)] := by
  induction es with
  | nil => rfl
  | cons e es ih =>
      obtain ⟨k', v'⟩ := e
      have hk' : k' ≠ k := h (k', v') (List.mem_cons_self _ _)
      simp only [jsInsert, hk', if_false, List.cons_append]
      rw [ih (fun e he => h e (List.mem_cons_of_mem _ he))]

lemma jsInsert_cons_same (k : Str) (u v : JSValue) (es : List (Str × JSValue)) :
    jsInsert ((k, u) :: es) k v = (k, v) :: es := by
  simp [jsInsert]

lemma jsInsert_cons_other (k' k : Str) (u v : JSValue) (es : List (Str × JSValue))
    (h : k' ≠ k) :
    jsInsert ((k', u) :: es) k v = (k', u) :: jsInsert es k v := by
  simp [jsInsert, h]

lemma jsInsert_entries (rows : List Row) (k : Str) (v : JSValue) :
    ∀ (ks : List Str), ks.Nodup → k ∈ ks →
      (∀ k2 ∈ ks, (lastQualValue rows k2).isSome = true) →
      jsInsert (entriesOf rows ks) k v
        = ks.filterMap (fun k2 =>
            if k2 = k then some (k2, v) else (lastQualValue rows k2).map (fun u => (k2, u))) := by
  intro ks
  induction ks with
  | nil => intro _ hk _; simp at hk
  | cons a ks' ih =>
      intro hnodup hk htot
      obtain ⟨u, hu⟩ := Option.isSome_iff_exists.mp (htot a (List.mem_cons_self _ _))
      by_cases hak : a = k
      · subst hak
        have hnotin : a ∉ ks' := (List.nodup_cons.mp hnodup).1
        have htail : ks'.filterMap (fun k2 =>
              if k2 = a then some (k2, v)
              else (lastQualValue rows k2).map (fun u => (k2, u)))
            = entriesOf rows ks' := by
          unfold entriesOf
          apply List.filterMap_congr
          intro k2 hk2
          have hne : k2 ≠ a := fun he => hnotin (he ▸ hk2)
          simp [hne]
        unfold entriesOf
        rw [List.filterMap_cons, hu]
        simp only [Option.map_some']
        rw [jsInsert_cons_same]
        rw [List.filterMap_cons]
        rw [show (if a = a then some (a, v)
            else (lastQualValue rows a).map (fun u => (a, u))) = some (a, v) from by simp]
        unfold entriesOf at htail
        rw [htail]
      · have hk' : k ∈ ks' := by
          rcases List.mem_cons.mp hk with h | h
          · exact absurd h.symm hak
          · exact h
        unfold entriesOf
        rw [List.filterMap_cons, hu]
        simp only [Option.map_some']
        rw [jsInsert_cons_other a k u v _ hak]
        rw [List.filterMap_cons]
        rw [show (if a = k then some (a, v)
            else (lastQualValue rows a).map (fun u => (a, u))) = some (a, u) from by
          rw [if_neg hak, hu]
          rfl]
        have hrec := ih (List.nodup_cons.mp hnodup).2 hk'
          (fun k2 hk2 => htot k2 (List.mem_cons_of_mem _ hk2))
        unfold entriesOf at hrec
        rw [hrec]

lemma lastQualValue_isSome (rows : List Row) (k : Str)
    (h : k ∈ rows.filterMap qualKey) : (lastQualValue rows k).isSome = true := by
  obtain ⟨r, hr, hq⟩ := List.mem_filterMap.mp h
  have hmem : r.value ∈ rows.filterMap (fun r =>
      match qualKey r with
      | some k2 => if k2 = k then some r.value else none
      | none => none) := by
    apply List.mem_filterMap.mpr
    exact ⟨r, hr, by simp [hq]⟩
  have hne : rows.filterMap (fun r =>
      match qualKey r with
      | some k2 => if k2 = k then some r.value else none
      | none => none) ≠ [] := List.ne_nil_of_mem hmem
  unfold lastQualValue
  rw [Option.isSome_iff_ne_none]
  intro hnone
  exact hne (List.getLast?_eq_none_iff.mp hnone)

/-- The `forEach` loop builds exactly the declarative projection: qualifying
keys in first-occurrence order, each carrying its last assigned value. -/
lemma buildObj_eq_specEntries (rows : List Row) : buildObj rows = specEntries rows := by
  induction rows using List.reverseRecOn with
  | nil => rfl
  | append_singleton rows r ih =>
      rw [buildObj_concat, insertRow_eq, ih]
      unfold specEntries
      rw [List.filterMap_append]
      cases hq : qualKey r with
      | none =>
          simp only [List.filterMap_cons, List.filterMap_nil, hq, List.append_nil]
          apply entriesOf_congr
          intro k _
          rw [lastQualValue_concat, hq]
      | some k =>
          simp only [List.filterMap_cons, hq, List.filterMap_nil]
          by_cases hk : k ∈ rows.filterMap qualKey
          · rw [firstDedup_concat, if_pos hk]
            rw [jsInsert_entries rows k r.value (firstDedup (rows.filterMap qualKey))
              (firstDedup_nodup _) ((mem_firstDedup k _).mpr hk)
              (fun k2 hk2 => lastQualValue_isSome rows k2 ((mem_firstDedup k2 _).mp hk2))]
            unfold entriesOf
            apply List.filterMap_congr
            intro k2 _
            rw [lastQualValue_concat, hq]
            by_cases hke : k2 = k
            · subst hke
              simp
            · simp [hke, Ne.symm hke]
          · rw [firstDedup_concat, if_neg hk]
            have hlast : lastQualValue (rows ++ [r]) k = some r.value := by
              rw [lastQualValue_concat, hq]
              simp
            have hsplit : entriesOf (rows ++ [r]) (firstDedup (rows.filterMap qualKey) ++ [k])
                = entriesOf (rows ++ [r]) (firstDedup (rows.filterMap qualKey))
                  ++ entriesOf (rows ++ [r]) [k] := by
              unfold entriesOf
              rw [List.filterMap_append]
            have hone : entriesOf (rows ++ [r]) [k] = [(k, r.value)] := by
              unfold entriesOf
              rw [List.filterMap_cons, hlast]
              rfl
            have hmain : entriesOf (rows ++ [r]) (firstDedup (rows.filterMap qualKey))
                = entriesOf rows (firstDedup (rows.filterMap qualKey)) := by
              apply entriesOf_congr
              intro k2 hk2
              have hne : k ≠ k2 := by
                intro he
                exact hk (he ▸ (mem_firstDedup k2 _).mp hk2)
              rw [lastQualValue_concat, hq]
              simp [hne]
            have hnotin : ∀ e ∈ entriesOf rows (firstDedup (rows.filterMap qualKey)),
                e.1 ≠ k := by
              intro e he hek
              exact hk (hek ▸ (mem_firstDedup e.1 _).mp
                (entriesOf_key_mem rows _ e he))
            rw [hsplit, hone, hmain, jsInsert_not_mem _ _ _ hnotin]

lemma qualKey_container (r : Row)
    (h : r.typ = "array".toList ∨ r.typ = "object".toList) : qualKey r = none := by
  unfold qualKey
  rw [if_pos h]

lemma qualKey_of_empty_key (r : Row) (h : r.key = some []) : qualKey r = none := by
  unfold qualKey
  by_cases hc : r.typ = "array".toList ∨ r.typ = "object".toList
  · rw [if_pos hc]
  · rw [if_neg hc, h]
    rfl

lemma foldl_insertRow_skip (rows : List Row) :
    ∀ (acc : List (Str × JSValue)), (∀ r ∈ rows, qualKey r = none) →
      rows.foldl insertRow acc = acc := by
  induction rows with
  | nil => intro acc _; rfl
  | cons r rows ih =>
      intro acc hall
      rw [List.foldl_cons, insertRow_eq, hall r (List.mem_cons_self _ _)]
      exact ih acc (fun r2 h2 => hall r2 (List.mem_cons_of_mem _ h2))

lemma buildObj_skip_mid (pre post : List Row) (r : Row) (hq : qualKey r = none) :
    buildObj (pre ++ r :: post) = buildObj (pre ++ post) := by
  unfold buildObj
  rw [List.foldl_append, List.foldl_append, List.foldl_cons, insertRow_eq, hq]

lemma normalizeNodeData_two (rows : List Row) (h : 2 ≤ rows.length) :
    normalizeNodeData rows = jsonStringifyPretty2 (buildObj rows) := by
  cases rows with
  | nil => simp at h
  | cons r rest =>
      cases rest with
      | nil => simp at h
      | cons r2 rest' => rfl

lemma bracketJoin (xs : List Str) : ∀ (x : Str),
    '[' :: (joinSep [']', '['] (x :: xs) ++ [']'])
      = ('[' :: (x ++ [']'])) ++ (xs.map (fun s => '[' :: (s ++ [']']))).flatten := by
  induction xs with
  | nil => intro x; simp [joinSep]
  | cons y ys ih =>
      intro x
      have hstep : joinSep [']', '['] (x :: y :: ys)
          = x ++ ([']', '['] ++ joinSep [']', '['] (y :: ys)) := rfl
      have hrec := ih y
      rw [hstep, List.map_cons, List.flatten_cons, ← hrec]
      simp

/-- C1: On commit, the two field edits are applied sequentially against the
evolving document: the name edit is computed on the current document, the
color edit on the document already containing the name edit, and the
published final document shows both new values — for every document, base
path resolvable to an object in it, and string draft values. -/
theorem c1_commit_sequenced (doc : Json) (basePath : List PathSeg)
    (fs : List (Str × Json)) (nv cv : Str)
    (hbase : getAt basePath doc = some (Json.obj fs)) :
    ∃ d1 d2,
      applyFieldEditE doc basePath "name".toList nv = .ok d1 ∧
      applyFieldEditE d1 basePath "color".toList cv = .ok d2 ∧
      saveCommit doc basePath nv cv = some d2 ∧
      getAt (basePath ++ [PathSeg.key "name".toList]) d2 = some (Json.str nv) ∧
      getAt (basePath ++ [PathSeg.key "color".toList]) d2 = some (Json.str cv) := by
  obtain ⟨d1, hok1, hget1⟩ :=
    setAtObj_ok basePath doc fs "name".toList (Json.str nv) hbase
  obtain ⟨d2, hok2, hget2⟩ :=
    setAtObj_ok basePath d1 _ "color".toList (Json.str cv) hget1
  have h1 : applyFieldEditE doc basePath "name".toList nv = .ok d1 := hok1
  have h2 : applyFieldEditE d1 basePath "color".toList cv = .ok d2 := hok2
  have hnc : "name".toList ≠ "color".toList := by decide
  refine ⟨d1, d2, h1, h2, ?_, ?_, ?_⟩
  · simp only [saveCommit, h1, h2]
  · rw [getAt_append, hget2]
    rw [show Option.bind (some (Json.obj (setField (setField fs "name".toList
        (Json.str nv)) "color".toList (Json.str cv))))
        (getAt [PathSeg.key "name".toList])
        = getAt [PathSeg.key "name".toList] (Json.obj (setField (setField fs "name".toList
        (Json.str nv)) "color".toList (Json.str cv))) from rfl]
    rw [getAt_single_key, lookupField_setField_other _ _ _ _ hnc,
      lookupField_setField_same]
  · rw [getAt_append, hget2]
    rw [show Option.bind (some (Json.obj (setField (setField fs "name".toList
        (Json.str nv)) "color".toList (Json.str cv))))
        (getAt [PathSeg.key "color".toList])
        = getAt [PathSeg.key "color".toList] (Json.obj (setField (setField fs "name".toList
        (Json.str nv)) "color".toList (Json.str cv))) from rfl]
    rw [getAt_single_key, lookupField_setField_same]

/-- Witness for C1 at a concrete document and base path. -/
theorem c1_commit_sequenced_witness :
    ∃ d1 d2,
      applyFieldEditE (Json.obj [("a".toList, Json.obj [])]) [PathSeg.key "a".toList]
        "name".toList "x".toList = .ok d1 ∧
      applyFieldEditE d1 [PathSeg.key "a".toList] "color".toList "red".toList = .ok d2 ∧
      saveCommit (Json.obj [("a".toList, Json.obj [])]) [PathSeg.key "a".toList]
        "x".toList "red".toList = some d2 ∧
      getAt ([PathSeg.key "a".toList] ++ [PathSeg.key "name".toList]) d2
        = some (Json.str "x".toList) ∧
      getAt ([PathSeg.key "a".toList] ++ [PathSeg.key "color".toList]) d2
        = some (Json.str "red".toList) :=
  c1_commit_sequenced (Json.obj [("a".toList, Json.obj [])]) [PathSeg.key "a".toList]
    [] "x".toList "red".toList rfl

/-- C2 fails as stated: when the name edit fails (base path resolving to a
non-object), the single `try/catch` abandons the whole commit — the color
field is not attempted and nothing is published — whereas the claimed
best-effort policy would continue and publish the text. -/
theorem c2_counterexample :
    saveCommit (Json.obj [("a".toList, Json.num 1)]) [PathSeg.key "a".toList]
        "x".toList "y".toList = none ∧
    bestEffortCommit (Json.obj [("a".toList, Json.num 1)]) [PathSeg.key "a".toList]
        "x".toList "y".toList
      = some (Json.obj [("a".toList, Json.num 1)]) :=
  ⟨rfl, rfl⟩

/-- C2 (amended): when either field edit fails during a commit, the entire
commit is abandoned — no further field edit is applied and no text is
published, so the document keeps its pre-commit value; text is published
exactly when both sequential edits succeed, hence no corrupt partial text is
ever published. -/
theorem c2_commit_abort (doc : Json) (basePath : List PathSeg) (nv cv : Str) :
    (∀ e, applyFieldEditE doc basePath "name".toList nv = .error e →
      saveCommit doc basePath nv cv = none) ∧
    (∀ d1 e, applyFieldEditE doc basePath "name".toList nv = .ok d1 →
      applyFieldEditE d1 basePath "color".toList cv = .error e →
      saveCommit doc basePath nv cv = none) ∧
    (∀ d1 d2, applyFieldEditE doc basePath "name".toList nv = .ok d1 →
      applyFieldEditE d1 basePath "color".toList cv = .ok d2 →
      saveCommit doc basePath nv cv = some d2) := by
  refine ⟨?_, ?_, ?_⟩
  · intro e h
    simp only [saveCommit, h]
  · intro d1 e h1 h2
    simp only [saveCommit, h1, h2]
  · intro d1 d2 h1 h2
    simp only [saveCommit, h1, h2]

/-- Witness for C2 (amended) at concrete inputs: a failing name edit
publishes nothing; two succeeding edits publish the doubly-edited text. -/
theorem c2_commit_abort_witness :
    saveCommit (Json.obj [("a".toList, Json.num 1)]) [PathSeg.key "a".toList]
        "x".toList "y".toList = none ∧
    saveCommit (Json.obj []) [] "x".toList "y".toList
      = some (Json.obj [("name".toList, Json.str "x".toList),
          ("color".toList, Json.str "y".toList)]) :=
  ⟨(c2_commit_abort (Json.obj [("a".toList, Json.num 1)]) [PathSeg.key "a".toList]
      "x".toList "y".toList).1 () rfl,
    (c2_commit_abort (Json.obj []) [] "x".toList "y".toList).2.2
      (Json.obj [("name".toList, Json.str "x".toList)])
      (Json.obj [("name".toList, Json.str "x".toList),
        ("color".toList, Json.str "y".toList)]) rfl rfl⟩

/-- C3: the reconciler's stringified-path comparison is equivalent to the
structural elementwise path equality of spec section 3 for all paths of
string and index segments, and consequently the reconciler's node search is
governed exactly by structural path equality. -/
theorem c3_pathMatches_structural :
    (∀ p q : List PathSeg, pathMatches p q = pathStructEqB p q) ∧
    (∀ (nodes : List NodeData) (t : List PathSeg) (cur : Option NodeData),
      reconcile nodes t cur
        = match nodes.find? (fun n => pathStructEqB n.path t) with
          | some m => some m
          | none => cur) := by
  have hpt : ∀ p q : List PathSeg, pathMatches p q = pathStructEqB p q := by
    intro p q
    rw [Bool.eq_iff_iff, pathMatches_iff, pathStructEqB_iff]
  refine ⟨hpt, ?_⟩
  intro nodes t cur
  unfold reconcile
  have hfind : nodes.find? (fun n => pathMatches n.path t)
      = nodes.find? (fun n => pathStructEqB n.path t) := by
    induction nodes with
    | nil => rfl
    | cons n ns ih => rw [List.find?_cons, List.find?_cons, hpt, ih]
  rw [hfind]

/-- C4: when no rebuilt node's path equals the target path, the reconciler
leaves the current selection unchanged (stale, neither cleared nor
reassigned); the miss is absorbed silently. -/
theorem c4_reconcile_miss_stale (nodes : List NodeData) (t : List PathSeg)
    (cur : Option NodeData) (h : ∀ n ∈ nodes, n.path ≠ t) :
    reconcile nodes t cur = cur := by
  unfold reconcile
  have hfind : nodes.find? (fun n => pathMatches n.path t) = none := by
    rw [List.find?_eq_none]
    intro n hn hmatch
    exact h n hn ((pathMatches_iff _ _).mp hmatch)
  rw [hfind]

/-- Witness for C4: a node at index path `[1]` does not match the string
target path `["1"]`, so the stale selection survives. -/
theorem c4_reconcile_miss_stale_witness :
    reconcile [⟨[PathSeg.idx 1], []⟩] [PathSeg.key "1".toList]
        (some ⟨[PathSeg.key "a".toList], []⟩)
      = some ⟨[PathSeg.key "a".toList], []⟩ :=
  c4_reconcile_miss_stale [⟨[PathSeg.idx 1], []⟩] [PathSeg.key "1".toList]
    (some ⟨[PathSeg.key "a".toList], []⟩) (by decide)

/-- C5 fails as stated: with an empty-string key (defined but falsy), a
duplicated key, and an array-index-like key in the row list, the produced
text is not the object literal with exactly the defined-key pairs in input
order. -/
theorem c5_counterexample :
    normalizeNodeData
        [⟨some "b".toList, JSValue.vnum 1, "number".toList⟩,
          ⟨some [], JSValue.vnum 2, "number".toList⟩,
          ⟨some "0".toList, JSValue.vnum 3, "number".toList⟩,
          ⟨some "b".toList, JSValue.vnum 4, "number".toList⟩]
      ≠ claimNormalizeC5
        [⟨some "b".toList, JSValue.vnum 1, "number".toList⟩,
          ⟨some [], JSValue.vnum 2, "number".toList⟩,
          ⟨some "0".toList, JSValue.vnum 3, "number".toList⟩,
          ⟨some "b".toList, JSValue.vnum 4, "number".toList⟩] := by
  decide

/-- C5 (amended): for every row list that is neither empty nor a single
falsy-key row, normalize returns the 2-space pretty-printed object literal
whose entries are the (key, value) pairs of the rows with non-container type
and truthy (defined, non-empty) key, deduplicated so each key sits at its
first occurrence carrying its last assigned value, serialized in JS
own-property order (array-index-like keys first, ascending). -/
theorem c5_normalize_object (rows : List Row) (hne : rows ≠ [])
    (hsingle : ∀ r, rows = [r] → rowKeyTruthy r = true) :
    normalizeNodeData rows = prettyObjInOrder (orderOwnKeys (specEntries rows)) := by
  have hobj : normalizeNodeData rows = jsonStringifyPretty2 (buildObj rows) := by
    cases rows with
    | nil => exact absurd rfl hne
    | cons r rest =>
        cases rest with
        | nil =>
            have ht := hsingle r rfl
            simp [normalizeNodeData, ht]
        | cons r2 rest' => rfl
  rw [hobj, jsonStringifyPretty2_eq, buildObj_eq_specEntries]

/-- Witness for C5 (amended) at a concrete two-row list. -/
theorem c5_normalize_object_witness :
    normalizeNodeData
        [⟨some "b".toList, JSValue.vnum 1, "number".toList⟩,
          ⟨some "a".toList, JSValue.vnum 2, "number".toList⟩]
      = prettyObjInOrder (orderOwnKeys (specEntries
          [⟨some "b".toList, JSValue.vnum 1, "number".toList⟩,
            ⟨some "a".toList, JSValue.vnum 2, "number".toList⟩])) :=
  c5_normalize_object _ (by decide) (by intro r h; simp at h)

/-- C6: a single row with an undefined key normalizes to the JS string
coercion of its value, with no added quoting; in particular the row with an
undefined key, value 42 and type number normalizes to the two characters 42. -/
theorem c6_normalize_scalar :
    (∀ (v : JSValue) (t : Str), normalizeNodeData [⟨none, v, t⟩] = jsStringOf v) ∧
    normalizeNodeData [⟨none, JSValue.vnum 42, "number".toList⟩] = "42".toList := by
  refine ⟨fun v t => rfl, by decide⟩

/-- C7 fails as stated: a single keyless row of container type goes through
the scalar branch and normalizes to the string coercion of its value, not to
the braces literal. -/
theorem c7_counterexample :
    normalizeNodeData [⟨none, JSValue.vnull, "object".toList⟩]
      ≠ "\x7b\x7d".toList := by
  decide

/-- C7 (amended): every row list in which each row has type object or array
normalizes to the empty-object literal, except a single-row list whose row
has a falsy key (which goes through the scalar branch). -/
theorem c7_containers_drop (rows : List Row)
    (hall : ∀ r ∈ rows, r.typ = "array".toList ∨ r.typ = "object".toList)
    (hshape : ∀ r, rows = [r] → rowKeyTruthy r = true) :
    normalizeNodeData rows = "\x7b\x7d".toList := by
  have hskip : buildObj rows = [] :=
    foldl_insertRow_skip rows [] (fun r hr => qualKey_container r (hall r hr))
  cases rows with
  | nil => rfl
  | cons r rest =>
      cases rest with
      | nil =>
          have ht := hshape r rfl
          have hobj : normalizeNodeData [r] = jsonStringifyPretty2 (buildObj [r]) := by
            simp [normalizeNodeData, ht]
          rw [hobj, hskip]
          rfl
      | cons r2 rest' =>
          rw [normalizeNodeData_two _ (by simp), hskip]
          rfl

/-- Witness for C7 (amended): two container rows normalize to the braces. -/
theorem c7_containers_drop_witness :
    normalizeNodeData
        [⟨some "a".toList, JSValue.vnull, "object".toList⟩,
          ⟨none, JSValue.vnull, "array".toList⟩]
      = "\x7b\x7d".toList :=
  c7_containers_drop _ (by decide) (by intro r h; simp at h)

/-- C8: the path formatter returns the dollar sign for an undefined or empty
path, and for every non-empty path emits the dollar sign followed by exactly
one bracketed segment per path entry in order, with integer segments
unquoted and string segments double-quoted. -/
theorem c8_jsonPathToString_shape :
    jsonPathToString none = "$".toList ∧
    jsonPathToString (some []) = "$".toList ∧
    (∀ p : List PathSeg, p ≠ [] →
      jsonPathToString (some p)
        = '$' :: (p.map (fun s => '[' :: (segDisplay s ++ [']']))).flatten) := by
  refine ⟨rfl, rfl, ?_⟩
  intro p hp
  cases p with
  | nil => exact absurd rfl hp
  | cons s p' =>
      show '$' :: '[' :: (joinSep [']', '['] ((s :: p').map segDisplay) ++ [']']) = _
      rw [List.map_cons, bracketJoin, List.map_map, List.map_cons, List.flatten_cons]
      rfl

/-- Witness for C8 at a concrete mixed path. -/
theorem c8_jsonPathToString_shape_witness :
    jsonPathToString (some [PathSeg.key "customer".toList, PathSeg.idx 3])
      = '$' :: (([PathSeg.key "customer".toList, PathSeg.idx 3].map
          (fun s => '[' :: (segDisplay s ++ [']']))).flatten) :=
  c8_jsonPathToString_shape.2.2 [PathSeg.key "customer".toList, PathSeg.idx 3]
    (by decide)

/-- C9: the empty row list (zero rows, which is also what the call site
passes when no node is selected) normalizes to the empty-object literal. -/
theorem c9_normalize_empty : normalizeNodeData [] = "\x7b\x7d".toList := rfl

/-- C10: an empty-string key is treated like an absent key: a single row
keyed by the empty string is rendered as a bare scalar via the JS string
coercion of its value, and in longer row lists an empty-string-keyed row is
omitted from the object projection even though its key is defined. -/
theorem c10_empty_key_as_absent :
    (∀ (v : JSValue) (t : Str),
      normalizeNodeData [⟨some [], v, t⟩] = jsStringOf v) ∧
    (∀ (pre post : List Row) (r : Row), r.key = some [] → pre ++ post ≠ [] →
      normalizeNodeData (pre ++ r :: post)
        = jsonStringifyPretty2 (buildObj (pre ++ post))) := by
  refine ⟨fun v t => rfl, ?_⟩
  intro pre post r hk hne
  have hlen : 2 ≤ (pre ++ r :: post).length := by
    have : 0 < (pre ++ post).length := List.length_pos.mpr hne
    simp only [List.length_append, List.length_cons] at this ⊢
    omega
  rw [normalizeNodeData_two _ hlen, buildObj_skip_mid pre post r
    (qualKey_of_empty_key r hk)]

/-- Witness for C10 at a concrete two-row list. -/
theorem c10_empty_key_as_absent_witness :
    normalizeNodeData
        [⟨some "a".toList, JSValue.vnum 1, "number".toList⟩,
          ⟨some [], JSValue.vnum 2, "number".toList⟩]
      = jsonStringifyPretty2 (buildObj
          [⟨some "a".toList, JSValue.vnum 1, "number".toList⟩]) :=
  c10_empty_key_as_absent.2
    [⟨some "a".toList, JSValue.vnum 1, "number".toList⟩] []
    ⟨some [], JSValue.vnum 2, "number".toList⟩ rfl (by decide)

end NodeModal
